import Mathlib

/-!
Verification of `compare_epub.py` (epub_translator repository).

The Python source is shallowly embedded: byte strings become `List Nat`,
text becomes `String` (manipulated through its underlying `List Char`),
ZIP archives become lists of entries carrying a raw name, raw bytes and a
stored/compressed flag, and fallible operations return `Except`/`Option`.
Each definition names the Python function (and line numbers) it embeds.
-/

set_option autoImplicit false

namespace CompareEpub

/-! ### Character-list utilities (Python string primitives) -/

/-- Python whitespace test restricted to the ASCII whitespace characters
(`str.strip` with no argument strips these, among others). -/
def isWS (c : Char) : Bool :=
  c = ' ' || c = '\t' || c = '\n' || c = '\r' || c = '\x0b' || c = '\x0c'

/-- Boolean prefix test on character lists (Python `str.startswith`). -/
def isPrefixL : List Char → List Char → Bool
  | [], _ => true
  | _ :: _, [] => false
  | c :: cs, d :: ds => c = d && isPrefixL cs ds

/-- Boolean substring test (Python `needle in hay`). -/
def subL (needle : List Char) : List Char → Bool
  | [] => needle.isEmpty
  | d :: ds => isPrefixL needle (d :: ds) || subL needle ds

/-- Python `str.strip()`: drop leading whitespace. -/
def lstripL (l : List Char) : List Char := l.dropWhile isWS

/-- Python `str.strip()`: drop trailing whitespace. -/
def rstripL (l : List Char) : List Char := (l.reverse.dropWhile isWS).reverse

/-- Python `str.strip()` (both ends). -/
def stripL (l : List Char) : List Char := rstripL (lstripL l)

/-- Split a character list at `/` separators (Python `str.split` with `/`). -/
def splitSlash : List Char → List (List Char)
  | [] => [[]]
  | c :: t =>
    let r := splitSlash t
    if c = '/' then [] :: r
    else
      match r with
      | [] => [[c]]
      | h :: t2 => (c :: h) :: t2

/-- Join components with `/` separators (Python str.join with a slash). -/
def joinSlash : List (List Char) → List Char
  | [] => []
  | [c] => c
  | c :: r => c ++ '/' :: joinSlash r

/-- Python `str.replace` of each backslash by a forward slash. -/
def replaceBS (l : List Char) : List Char :=
  l.map (fun c => if c = '\\' then '/' else c)

/-- String wrappers over the list primitives. -/
def pyStartsWith (s pre : String) : Bool := isPrefixL pre.data s.data

/-- Python `str.endswith`. -/
def pyEndsWith (s suf : String) : Bool := isPrefixL suf.data.reverse s.data.reverse

/-- Python `needle in hay` on strings. -/
def strContainsS (hay needle : String) : Bool := subL needle.data hay.data

/-- Python `str.strip()` on strings. -/
def pyStrip (s : String) : String := ⟨stripL s.data⟩

/-- Python `str.lower()` (ASCII case folding, the only case the inputs use). -/
def pyLower (s : String) : String := ⟨s.data.map Char.toLower⟩

/-! ### POSIX path functions used by the source (`os.path` on POSIX) -/

/-- One step of `posixpath.normpath`: the component-accumulation loop over the
split components, with `..` handling.  `slashes` is the Python
variable named initial underscore slashes. -/
def npStep (slashes : Nat) (acc : List (List Char)) (comp : List Char) :
    List (List Char) :=
  if comp ≠ ['.', '.'] ∨ (slashes = 0 ∧ acc = []) ∨
      acc.getLast? = some ['.', '.'] then
    acc ++ [comp]
  else
    acc.dropLast

/-- Embeds `posixpath.normpath` on a character list, following CPython: special-case
the empty path, count initial slashes (1, or exactly 2), drop empty and `.`
components, process `..` components, re-join. -/
def normpathL (p : List Char) : List Char :=
  if p = [] then ['.']
  else
    let slashes : Nat :=
      if isPrefixL ['/'] p then
        (if isPrefixL ['/', '/'] p ∧ ¬ isPrefixL ['/', '/', '/'] p then 2 else 1)
      else 0
    let comps := (splitSlash p).filter (fun c => c ≠ [] ∧ c ≠ ['.'])
    let newComps := comps.foldl (npStep slashes) []
    let res := List.replicate slashes '/' ++ joinSlash newComps
    if res = [] then ['.'] else res

/-- Embeds `normalize_path` (compare_epub.py lines 14-22): `normpath`, backslash to
slash, strip, then drop one leading `./`. -/
def normalizePathL (l : List Char) : List Char :=
  let t := stripL (replaceBS (normpathL l))
  if isPrefixL ['.', '/'] t then t.drop 2 else t

/-- String-level `normalize_path` (the Python code always passes a string;
the `None` case of line 15 is unreachable from the embedded call sites). -/
def normalize_path (s : String) : String := ⟨normalizePathL s.data⟩

/-- Embeds `posixpath.dirname`: everything up to (and excluding) the last slash,
with the CPython treatment of trailing-slash heads. -/
def dirnameL (l : List Char) : List Char :=
  let head := (l.reverse.dropWhile (fun c => c ≠ '/')).reverse
  if head ≠ [] ∧ head.any (fun c => c ≠ '/') then
    (head.reverse.dropWhile (fun c => c = '/')).reverse
  else head

/-- Embeds `os.path.dirname` on strings. -/
def posixDirname (s : String) : String := ⟨dirnameL s.data⟩

/-- Embeds `posixpath.basename`: everything after the last slash. -/
def posixBasename (s : String) : String :=
  ⟨(s.data.reverse.takeWhile (fun c => c ≠ '/')).reverse⟩

/-- Two-argument `posixpath.join`: an absolute second argument replaces the
first; otherwise insert a slash unless the first is empty or ends in one. -/
def posixJoin (a b : String) : String :=
  if pyStartsWith b "/" then b
  else if a = "" || pyEndsWith a "/" then a ++ b
  else a ++ "/" ++ b

/-- Decidable equality for pipeline results, so concrete runs can be
checked by evaluation. -/
instance {e a : Type} [DecidableEq e] [DecidableEq a] :
    DecidableEq (Except e a)
  | .error x, .error y =>
    if h : x = y then .isTrue (congrArg Except.error h)
    else .isFalse (fun hc => h (Except.error.inj hc))
  | .error _, .ok _ => .isFalse (fun hc => Except.noConfusion hc)
  | .ok _, .error _ => .isFalse (fun hc => Except.noConfusion hc)
  | .ok x, .ok y =>
    if h : x = y then .isTrue (congrArg Except.ok h)
    else .isFalse (fun hc => h (Except.ok.inj hc))

/-! ### Sorted set operations (Python `sorted(set - set)` etc.) -/

/-- Lexicographic comparison of character lists by code point, matching how
Python orders the strings that appear here. -/
def charListLe : List Char → List Char → Bool
  | [], _ => true
  | _ :: _, [] => false
  | c :: cs, d :: ds =>
    if c = d then charListLe cs ds else decide (c < d)

/-- String comparison used when the source calls `sorted`. -/
def strLeb (a b : String) : Bool := charListLe a.data b.data

/-- Insert into a sorted list, keeping order (one step of insertion sort). -/
def insSorted (x : String) : List String → List String
  | [] => [x]
  | y :: ys => if strLeb x y then x :: y :: ys else y :: insSorted x ys

/-- Sort a list of strings ascending (Python `sorted`). -/
def sortStr (l : List String) : List String := l.foldr insSorted []

/-- Python `sorted(set(a) - set(b))`: sorted deduplicated difference. -/
def sortedSetDiff (a b : List String) : List String :=
  sortStr ((a.dedup).filter (fun x => ¬ b.contains x))

/-- Python `sorted(set(a) & set(b))`: sorted deduplicated intersection. -/
def sortedSetInter (a b : List String) : List String :=
  sortStr ((a.dedup).filter (fun x => b.contains x))

/-! ### Archive model (zipfile usage in compare_epub.py) -/

/-- One ZIP member: raw stored name, raw (decompressed) bytes, and whether
its compression mode is `ZIP_STORED`. -/
structure ZEntry where
  name : String
  data : List Nat
  stored : Bool
  deriving DecidableEq, Repr

/-- An opened archive: its members in listing order. -/
abbrev Archive := List ZEntry

/-- Raw `ZipFile.namelist()`. -/
def rawNames (z : Archive) : List String := z.map (fun e => e.name)

/-- Embeds the `ZipFile.getinfo` / `open` / `read` name lookup: zipfile
keys members by raw name in a dict, so a later duplicate wins. -/
def zipFind (z : Archive) (n : String) : Option ZEntry :=
  z.reverse.find? (fun e => e.name = n)

/-- Embeds `zip_namelist_files` (lines 25-28): drop directory entries (raw name
ending in `/`), normalize the rest. -/
def zip_namelist_files (z : Archive) : List String :=
  (z.filter (fun e => ¬ pyEndsWith e.name "/")).map
    (fun e => normalize_path e.name)

/-- Decoding as ASCII with errors ignored drops every byte outside the
ASCII range (used on the mimetype entry, line 132). -/
def decodeAsciiIgnore (bs : List Nat) : String :=
  ⟨(bs.filter (fun b => b < 128)).map (fun b => Char.ofNat b)⟩

/-! ### Bootstrap (mimetype) invariant checks, lines 127-141 -/

/-- The Python layer raises on a failed zipfile name lookup (KeyError from
`getinfo`/`open`/`read`) and on reading a name never assigned
(NameError, possible at line 310). -/
inductive PyErr where
  | keyError
  | nameError
  deriving DecidableEq, Repr

/-- The four distinct mimetype error findings of lines 129, 137, 139, 141. -/
inductive MtFinding where
  | missing
  | badContent
  | notFirst
  | notStored
  deriving DecidableEq, Repr

/-- Lines 127-141 for one archive: report `missing` and stop if no
normalized name equals `mimetype`; otherwise look the entry up by the raw
name `mimetype` (`getinfo`, which raises KeyError when only a
differently-spelled raw name normalizes to `mimetype`), then run the three
independent content / first-position / storage-mode checks. -/
def mimetypeSection (z : Archive) : Except PyErr (List MtFinding) :=
  let names := zip_namelist_files z
  if names.contains "mimetype" then
    match zipFind z "mimetype" with
    | none => .error .keyError
    | some e =>
      let content := pyStrip (decodeAsciiIgnore e.data)
      let isFirst := names.head? = some "mimetype"
      .ok ((if content ≠ "application/epub+zip" then [MtFinding.badContent] else []) ++
           (if ¬ isFirst then [MtFinding.notFirst] else []) ++
           (if ¬ e.stored then [MtFinding.notStored] else []))
  else
    .ok [MtFinding.missing]

/-! ### Package document parsing (`parse_opf`, lines 53-98) -/

/-- One `<item>` element of the manifest as `ElementTree.findall` returns
it; `item.get(attr) or ''` turns an absent attribute into `""`. -/
structure OpfItem where
  href : String
  mediaType : String
  idAttr : String
  deriving DecidableEq, Repr

/-- The dictionary `parse_opf` returns (lines 94-98). -/
structure OpfData where
  manifest_paths : List String
  spine_paths : List String
  manifest_map : List (String × String)
  deriving DecidableEq, Repr

/-- Python `dict` lookup on an insertion list: a later assignment to the
same key overwrites, so search from the end. -/
def dictGet (m : List (String × String)) (k : String) : Option String :=
  (m.reverse.find? (fun kv => kv.1 = k)).map (fun kv => kv.2)

/-- Python dict lookup with an empty-string default. -/
def dictGetD (m : List (String × String)) (k : String) : String :=
  (dictGet m k).getD ""

/-- Embeds `join_href` (lines 67-68). -/
def joinHref (baseDir href : String) : String :=
  normalize_path (posixJoin baseDir href)

/-- The manifest loop of lines 74-85, restricted to the `manifest_paths`
output: items with an empty href are skipped. -/
def manifestPathsOf (baseDir : String) (items : List OpfItem) : List String :=
  items.filterMap (fun it =>
    if it.href = "" then none else some (joinHref baseDir it.href))

/-- The manifest loop, `manifest_map` output: only items with a non-empty
media type are recorded. -/
def manifestMapOf (baseDir : String) (items : List OpfItem) :
    List (String × String) :=
  items.filterMap (fun it =>
    if it.href = "" ∨ it.mediaType = "" then none
    else some (joinHref baseDir it.href, it.mediaType))

/-- The manifest loop, `id_to_href` output: only items with a non-empty id
are recorded. -/
def idToHrefOf (baseDir : String) (items : List OpfItem) :
    List (String × String) :=
  items.filterMap (fun it =>
    if it.href = "" ∨ it.idAttr = "" then none
    else some (it.idAttr, joinHref baseDir it.href))

/-- The spine loop of lines 87-92: dereference each idref through
`id_to_href`; `if full:` also drops a looked-up empty string. -/
def spinePathsOf (idToHref : List (String × String)) (idrefs : List String) :
    List String :=
  idrefs.filterMap (fun idref =>
    match dictGet idToHref idref with
    | some full => if full = "" then none else some full
    | none => none)

/-- Embeds `parse_opf` (lines 53-98) after `ElementTree` has produced the manifest
items and spine idrefs (the XML lexing itself is outside the embedding; its
results are the inputs here).  `opf_text` parse failure returns all-empty
data upstream and is represented by empty inputs. -/
def parse_opf (items : List OpfItem) (idrefs : List String)
    (opfPath : String) : OpfData :=
  let baseDir := normalize_path (posixDirname opfPath)
  { manifest_paths := manifestPathsOf baseDir items
    spine_paths := spinePathsOf (idToHrefOf baseDir items) idrefs
    manifest_map := manifestMapOf baseDir items }

/-! ### Reading-order (spine) divergence index, lines 188-194 -/

/-- The loop `for i in range(min_len): if spine_o[i] != spine_t[i]:
diff_idx = i; break` with initial `diff_idx = -1`, written as structural
recursion: a head mismatch is index 0, otherwise shift the tail result. -/
def firstSpineDiffIdx : List String → List String → Int
  | x :: xs, y :: ys =>
    if x = y then
      (let r := firstSpineDiffIdx xs ys
       if r = -1 then -1 else r + 1)
    else 0
  | _, _ => -1

/-- The spec-side notion for C5: one sequence is a non-strict prefix of the
other (this definition follows the claim wording, for comparison with
`firstSpineDiffIdx`). -/
def isPrefixSeq : List String → List String → Bool
  | [], _ => true
  | _ :: _, [] => false
  | x :: xs, y :: ys => x = y && isPrefixSeq xs ys

/-! ### Content diff and classification, lines 217-243 -/

/-- Embeds line 219, the sorted intersection of the two normalized name sets. -/
def commonSorted (zo zt : Archive) : List String :=
  sortedSetInter (zip_namelist_files zo) (zip_namelist_files zt)

/-- The read-and-compare body of the loop at lines 224-230: a KeyError on
either raw-name read skips the path; otherwise report whether bytes differ. -/
def bytesDiffer (zo zt : Archive) (p : String) : Bool :=
  match zipFind zo p, zipFind zt p with
  | some eo, some et => eo.data ≠ et.data
  | _, _ => false

/-- The classification test of line 235: `True` sends the changed path to
`non_html_changed`, `False` (markup extension, or the mimetype entry) to
`changed_html_paths`. -/
def toNonHtml (p : String) : Bool :=
  (¬ (pyEndsWith (pyLower p) ".html" ∨ pyEndsWith (pyLower p) ".xhtml")) ∧
    p ≠ "mimetype"

/-- Changed common paths in loop order (lines 224-239). -/
def changedPaths (zo zt : Archive) : List String :=
  (commonSorted zo zt).filter (fun p => bytesDiffer zo zt p)

/-- The two classification buckets the loop fills. -/
structure CDOut where
  nonHtmlChanged : List String
  changedHtmlPaths : List String
  deriving DecidableEq, Repr

/-- Lines 224-239 as a whole: split the changed paths by `toNonHtml`. -/
def contentDiff (zo zt : Archive) : CDOut :=
  let ch := changedPaths zo zt
  { nonHtmlChanged := ch.filter (fun p => toNonHtml p)
    changedHtmlPaths := ch.filter (fun p => ¬ toNonHtml p) }

/-! ### Markup validator slices of `find_html_issues`, lines 246-278 -/

/-- Characters the scheme regex `^[a-zA-Z][a-zA-Z0-9+.-]*:` allows after
the initial letter. -/
def schemeChar (c : Char) : Bool :=
  c.isAlpha || (c.isDigit || (c = '+' || (c = '.' || c = '-')))

/-- Helper for `hasScheme`: after the initial letter, consume scheme
characters until a colon (match) or any other character (no match). -/
def schemeTail : List Char → Bool
  | [] => false
  | c :: t => if c = ':' then true else (schemeChar c && schemeTail t)

/-- Embeds the scheme test of line 269 as a Boolean: the colon
is outside the repeated class, so a match exists exactly when the first
non-class character after the leading letter is a colon. -/
def hasScheme (s : String) : Bool :=
  match s.data with
  | [] => false
  | c :: rest => c.isAlpha && schemeTail rest

/-- The per-value body of the reference-existence loop (lines 266-273).
The regex extraction `(?:src|href)=["...]([^"...]+)["...]` is outside the
embedding; its captured values are the `hrefs` input, in match order. -/
def refCheck (docPath : String) (hrefs : List String)
    (zipNames : List String) : List String :=
  let baseDir := normalize_path (posixDirname docPath)
  hrefs.filterMap (fun h0 =>
    let h := pyStrip h0
    if h = "" || (pyStartsWith h "#" || hasScheme h) then none
    else
      let full := normalize_path (posixJoin baseDir h)
      if zipNames.contains full then none
      else some ("missing referenced resource: " ++ full))

/-- The resolution a qualifying reference undergoes (lines 266, 271). -/
def resolveRef (docPath href : String) : String :=
  normalize_path (posixJoin (normalize_path (posixDirname docPath)) href)

/-- The TOC convention check (lines 274-277): for a document whose base
filename starts with `toc` (case-insensitively), the finding fires when the
lower-cased text lacks `nav`, or lacks both TOC attribute spellings. -/
def toc_check (path text : String) : List String :=
  let lower := pyLower text
  if pyStartsWith (pyLower (posixBasename path)) "toc" then
    if ¬ strContainsS lower "nav" ∨
        (¬ strContainsS lower "epub:type=\"toc\"" ∧
         ¬ strContainsS lower "role=\"doc-toc\"") then
      ["toc.xhtml: missing <nav epub:type=\"toc\"> or role=\"doc-toc\""]
    else []
  else []

/-! ### The comparison pipeline `compare_epub`, lines 101-313 -/

/-- Embeds `extract_opf` (lines 144-153).  XML work is parameterized: `getRoot`
stands for decoding `META-INF/container.xml` and running
`get_rootfile_from_container` over it (`none` for Python `None`), and
`parseOpfText` for decoding the package document and running `parse_opf`
on its text.  Around those, the control flow follows the source: absent
container gives all-`None`; a falsy or unlisted rootfile path gives no
parsed data. -/
def extract_opf (getRoot : List Nat → Option String)
    (parseOpfText : List Nat → String → OpfData) (z : Archive) :
    Option String × Option OpfData :=
  match zipFind z "META-INF/container.xml" with
  | none => (none, none)
  | some c =>
    match getRoot c.data with
    | none => (none, none)
    | some r =>
      if r = "" then (some r, none)
      else
        match zipFind z r with
        | none => (some r, none)
        | some eo => (some r, some (parseOpfText eo.data r))

/-- Everything `compare_epub` computes that any claim observes, in the
order the report records it. -/
structure CompareResult where
  missing : List String
  extra : List String
  mtFindO : List MtFinding
  mtFindT : List MtFinding
  relO : Option String
  relT : Option String
  parsedO : Bool
  parsedT : Bool
  manMissing : List String
  manExtra : List String
  mtDiffs : Nat
  diffIdx : Int
  spineLenO : Nat
  spineLenT : Nat
  manRefsMissO : List String
  manRefsMissT : List String
  nonHtmlChanged : List String
  changedHtmlPaths : List String
  htmlIssues : List String
  hint : Bool
  deriving DecidableEq, Repr

/-- The closing-summary hint condition, line 310, including its Python
short-circuit behavior: `man_missing`, `man_extra` and `diff_idx` exist
only when both packages parsed, so reaching the third conjunct with a
parsed original but an unparsed translation raises NameError. -/
def hintCalc (missing extra : List String) (relO relT : Option String)
    (opfO opfT : Option OpfData) (manMissing manExtra : List String)
    (diffIdx : Int) (spineLenO spineLenT : Nat) (mtDiffs : Nat)
    (nonHtml : List String) : Except PyErr Bool :=
  if ¬ (missing = [] ∧ extra = []) then .ok false
  else if relO ≠ relT then .ok false
  else
    match opfO, opfT with
    | none, _ => .ok (nonHtml = [])
    | some _, none => .error .nameError
    | some _, some _ =>
      .ok ((manMissing = [] ∧ manExtra = [] ∧ diffIdx = -1 ∧
            spineLenO = spineLenT) ∧ mtDiffs = 0 ∧ nonHtml = [])

/-- Line 117: `missing = sorted(set_o - set_t)`, the paths reported as
missing in the translated archive. -/
def missingInTranslated (zo zt : Archive) : List String :=
  sortedSetDiff (zip_namelist_files zo) (zip_namelist_files zt)

/-- Line 118: `extra = sorted(set_t - set_o)`, the paths reported as extra
in the translated archive. -/
def extraInTranslated (zo zt : Archive) : List String :=
  sortedSetDiff (zip_namelist_files zt) (zip_namelist_files zo)

/-- Intermediates of the manifest/media-type/spine/existence block (lines
164-202), computed only when both packages parsed; otherwise the Python
variables stay unassigned and the placeholder values here are never read
by the guarded summary logic. -/
structure ManSection where
  manMissing : List String
  manExtra : List String
  mtDiffs : Nat
  diffIdx : Int
  spineLenO : Nat
  spineLenT : Nat
  refsO : List String
  refsT : List String
  deriving DecidableEq, Repr

/-- Lines 164-202: manifest set diffs, the media-type difference count of
line 301 (over the deduplicated common manifest paths), the spine
divergence data, and the per-archive manifest-to-archive existence
failures (iterated here over first-occurrence order of the manifest path
set). -/
def manSection (opfO opfT : Option OpfData) (namesO namesT : List String) :
    ManSection :=
  match opfO, opfT with
  | some po, some pt =>
    { manMissing := sortedSetDiff po.manifest_paths pt.manifest_paths
      manExtra := sortedSetDiff pt.manifest_paths po.manifest_paths
      mtDiffs :=
        (((po.manifest_paths.dedup).filter
            (fun p => pt.manifest_paths.contains p)).filter
          (fun p => dictGetD po.manifest_map p ≠ dictGetD pt.manifest_map p)).length
      diffIdx := firstSpineDiffIdx po.spine_paths pt.spine_paths
      spineLenO := po.spine_paths.length
      spineLenT := pt.spine_paths.length
      refsO := (po.manifest_paths.dedup).filter (fun p => ¬ namesO.contains p)
      refsT := (pt.manifest_paths.dedup).filter (fun p => ¬ namesT.contains p) }
  | _, _ => ⟨[], [], 0, -1, 0, 0, [], []⟩

/-- Line 310 with the arguments the source passes it. -/
def hintOf (getRoot : List Nat → Option String)
    (parseOpfText : List Nat → String → OpfData) (zo zt : Archive) :
    Except PyErr Bool :=
  let m := manSection (extract_opf getRoot parseOpfText zo).2
    (extract_opf getRoot parseOpfText zt).2
    (zip_namelist_files zo) (zip_namelist_files zt)
  hintCalc (missingInTranslated zo zt) (extraInTranslated zo zt)
    (extract_opf getRoot parseOpfText zo).1
    (extract_opf getRoot parseOpfText zt).1
    (extract_opf getRoot parseOpfText zo).2
    (extract_opf getRoot parseOpfText zt).2
    m.manMissing m.manExtra m.diffIdx m.spineLenO m.spineLenT m.mtDiffs
    (contentDiff zo zt).nonHtmlChanged

/-- The successful-run record: every field is the expression the source
computes for it. -/
def resultRecord (getRoot : List Nat → Option String)
    (parseOpfText : List Nat → String → OpfData)
    (findIssues : String → List Nat → Bool → List String → List String)
    (zo zt : Archive) (mtO mtT : List MtFinding) (hv : Bool) :
    CompareResult :=
  let namesT := zip_namelist_files zt
  let eO := extract_opf getRoot parseOpfText zo
  let eT := extract_opf getRoot parseOpfText zt
  let m := manSection eO.2 eT.2 (zip_namelist_files zo) namesT
  let cd := contentDiff zo zt
  { missing := missingInTranslated zo zt, extra := extraInTranslated zo zt,
    mtFindO := mtO, mtFindT := mtT, relO := eO.1, relT := eT.1,
    parsedO := eO.2.isSome, parsedT := eT.2.isSome,
    manMissing := m.manMissing, manExtra := m.manExtra,
    mtDiffs := m.mtDiffs, diffIdx := m.diffIdx,
    spineLenO := m.spineLenO, spineLenT := m.spineLenT,
    manRefsMissO := m.refsO, manRefsMissT := m.refsT,
    nonHtmlChanged := cd.nonHtmlChanged,
    changedHtmlPaths := cd.changedHtmlPaths,
    htmlIssues :=
      (cd.changedHtmlPaths.take 20).flatMap (fun p =>
        (findIssues p (match zipFind zt p with
            | some e => e.data
            | none => [])
            (pyEndsWith (pyLower p) ".xhtml") namesT).map
          (fun msg => p ++ ": " ++ msg)),
    hint := hv }

/-- Embeds `compare_epub` (lines 101-313) up to the data every claim observes.
The XML parsing helpers and `find_html_issues` (whose claim-relevant
slices are `toc_check` and `refCheck`) are parameters; the byte-level
well-formedness sampling of lines 204-215 only adds report lines no claim
references and is omitted.  Errors propagate exactly where the Python
function raises: the two mimetype sections (original first), then the
NameError of the summary. -/
def comparePipeline (getRoot : List Nat → Option String)
    (parseOpfText : List Nat → String → OpfData)
    (findIssues : String → List Nat → Bool → List String → List String)
    (zo zt : Archive) : Except PyErr CompareResult :=
  match mimetypeSection zo with
  | .error e => .error e
  | .ok mtO =>
    match mimetypeSection zt with
    | .error e => .error e
    | .ok mtT =>
      match hintOf getRoot parseOpfText zo zt with
      | .error e => .error e
      | .ok hv =>
        .ok (resultRecord getRoot parseOpfText findIssues zo zt mtO mtT hv)

/-- A root-file parser standing in where a run never consults it. -/
def noRoot : List Nat → Option String := fun _ => none

/-- A package parser standing in where a run never consults it. -/
def noOpf : List Nat → String → OpfData := fun _ _ => ⟨[], [], []⟩

/-- An issue scanner standing in where a run never consults it. -/
def noIssues : String → List Nat → Bool → List String → List String :=
  fun _ _ _ _ => []

/-- The bytes of the string `application/epub+zip`. -/
def mimeBytes : List Nat :=
  [97, 112, 112, 108, 105, 99, 97, 116, 105, 111, 110, 47, 101, 112, 117,
   98, 43, 122, 105, 112]

/-! ## Helper lemmas -/

theorem mem_insSorted {x y : String} {l : List String} :
    x ∈ insSorted y l ↔ x = y ∨ x ∈ l := by
  induction l with
  | nil => simp [insSorted]
  | cons z zs ih =>
    by_cases h : strLeb y z
    · simp [insSorted, h]
    · simp [insSorted, h, ih]
      tauto

theorem mem_sortStr {x : String} {l : List String} :
    x ∈ sortStr l ↔ x ∈ l := by
  induction l with
  | nil => simp [sortStr]
  | cons z zs ih =>
    simp only [sortStr, List.foldr] at *
    rw [mem_insSorted, ih]
    simp

theorem contains_mem {l : List String} {a : String} :
    l.contains a = true ↔ a ∈ l := by
  simp

theorem fsd_nonneg_or :
    ∀ (a b : List String),
      firstSpineDiffIdx a b = -1 ∨ 0 ≤ firstSpineDiffIdx a b := by
  intro a
  induction a with
  | nil => intro b; left; rfl
  | cons x xs ih =>
    intro b
    cases b with
    | nil => left; rfl
    | cons y ys =>
      by_cases hxy : x = y
      · by_cases hr : firstSpineDiffIdx xs ys = -1
        · left; simp [firstSpineDiffIdx, hxy, hr]
        · right
          rcases ih ys with h | h
          · exact absurd h hr
          · simp only [firstSpineDiffIdx, if_pos hxy, if_neg hr]
            omega
      · right; simp [firstSpineDiffIdx, hxy]

theorem fsd_cons_neg_one {x y : String} {xs ys : List String} :
    firstSpineDiffIdx (x :: xs) (y :: ys) = -1 ↔
      x = y ∧ firstSpineDiffIdx xs ys = -1 := by
  by_cases hxy : x = y
  · by_cases hr : firstSpineDiffIdx xs ys = -1
    · simp [firstSpineDiffIdx, hxy, hr]
    · simp only [firstSpineDiffIdx, if_pos hxy, if_neg hr]
      rcases fsd_nonneg_or xs ys with h | h
      · exact absurd h hr
      · constructor
        · intro hc; omega
        · rintro ⟨-, hc⟩; exact absurd hc hr
  · simp [firstSpineDiffIdx, hxy]

theorem fsd_prefix_iff :
    ∀ (a b : List String),
      firstSpineDiffIdx a b = -1 ↔
        (isPrefixSeq a b = true ∨ isPrefixSeq b a = true) := by
  intro a
  induction a with
  | nil =>
    intro b
    simp [firstSpineDiffIdx, isPrefixSeq]
  | cons x xs ih =>
    intro b
    cases b with
    | nil => simp [firstSpineDiffIdx, isPrefixSeq]
    | cons y ys =>
      rw [fsd_cons_neg_one, ih ys]
      simp only [isPrefixSeq, Bool.and_eq_true, decide_eq_true_eq]
      constructor
      · rintro ⟨hxy, h | h⟩
        · exact Or.inl ⟨hxy, h⟩
        · exact Or.inr ⟨hxy.symm, h⟩
      · rintro (⟨hxy, h⟩ | ⟨hxy, h⟩)
        · exact ⟨hxy, Or.inl h⟩
        · exact ⟨hxy.symm, Or.inr h⟩

theorem fsd_spec :
    ∀ (a b : List String) (i : Nat), firstSpineDiffIdx a b = (i : Int) →
      i < min a.length b.length ∧ a[i]? ≠ b[i]? ∧
        ∀ j : Nat, j < i → a[j]? = b[j]? := by
  intro a
  induction a with
  | nil =>
    intro b i h
    simp only [firstSpineDiffIdx] at h
    omega
  | cons x xs ih =>
    intro b i h
    cases b with
    | nil =>
      simp only [firstSpineDiffIdx] at h
      omega
    | cons y ys =>
      by_cases hxy : x = y
      · subst hxy
        by_cases hr : firstSpineDiffIdx xs ys = -1
        · simp only [firstSpineDiffIdx, eq_self_iff_true, if_true,
            if_pos hr] at h
          omega
        · simp only [firstSpineDiffIdx, eq_self_iff_true, if_true,
            if_neg hr] at h
          rcases fsd_nonneg_or xs ys with h0 | h0
          · exact absurd h0 hr
          · cases i with
            | zero => omega
            | succ i' =>
              have hr' : firstSpineDiffIdx xs ys = (i' : Int) := by omega
              obtain ⟨h1, h2, h3⟩ := ih ys i' hr'
              refine ⟨?_, ?_, ?_⟩
              · simp only [List.length_cons]
                rw [Nat.lt_min] at h1 ⊢
                omega
              · simpa using h2
              · intro j hj
                cases j with
                | zero => simp
                | succ j' =>
                  simpa using h3 j' (by omega)
      · simp only [firstSpineDiffIdx, if_neg hxy] at h
        have hi : i = 0 := by omega
        subst hi
        refine ⟨?_, ?_, ?_⟩
        · simp only [List.length_cons]
          rw [Nat.lt_min]
          omega
        · simpa using hxy
        · intro j hj; omega

/-! ## Claim C8 -/

/-- C8: the file-set diff is symmetric under swapping the two archives:
the list reported as missing-in-translated for `(A, B)` is the list
reported as extra-in-translated for `(B, A)`, and vice versa. -/
theorem missing_extra_swap (zo zt : Archive) :
    missingInTranslated zo zt = extraInTranslated zt zo ∧
      extraInTranslated zo zt = missingInTranslated zt zo :=
  ⟨rfl, rfl⟩

/-! ## Claim C5 -/

/-- C5: the reported spine divergence index is `-1` exactly when one
reading order is a non-strict prefix of the other (equality included),
and any reported index `i` is below the shorter length, points at a
genuine difference, and is minimal: all earlier positions agree. -/
theorem spine_diff_index_spec (a b : List String) :
    (firstSpineDiffIdx a b = -1 ↔
      (isPrefixSeq a b = true ∨ isPrefixSeq b a = true)) ∧
    ∀ i : Nat, firstSpineDiffIdx a b = (i : Int) →
      i < min a.length b.length ∧ a[i]? ≠ b[i]? ∧
        ∀ j : Nat, j < i → a[j]? = b[j]? :=
  ⟨fsd_prefix_iff a b, fsd_spec a b⟩

/-- Witness for C5 at a concrete pair of reading orders diverging at
index 1. -/
theorem spine_diff_index_spec_witness :
    1 < min (List.length ["x", "q"]) (List.length ["x", "r"]) ∧
      (["x", "q"] : List String)[1]? ≠ (["x", "r"] : List String)[1]? :=
  ⟨((spine_diff_index_spec ["x", "q"] ["x", "r"]).2 1 (by decide)).1,
   ((spine_diff_index_spec ["x", "q"] ["x", "r"]).2 1 (by decide)).2.1⟩

/-! ## Claim C3 -/

/-- C3 counterexample: for the document `toc.xhtml` whose text is just
`nav`, a nav marker is present and the claim predicts no TOC finding, yet
the check (which demands `nav` AND one of the TOC attributes) emits one. -/
theorem toc_check_counterexample :
    ¬ ((toc_check "toc.xhtml" "nav" ≠ []) ↔
        (strContainsS (pyLower "nav") "nav" = false ∧
         strContainsS (pyLower "nav") "epub:type=\"toc\"" = false ∧
         strContainsS (pyLower "nav") "role=\"doc-toc\"" = false)) := by
  decide

/-- C3 amended: for a document whose base filename starts with `toc`
(case-insensitively), the single TOC finding is emitted exactly when the
lower-cased text lacks the `nav` marker, or lacks both TOC attribute
spellings; it is suppressed only when `nav` and at least one TOC
attribute are both present. -/
theorem toc_check_amended (path text : String)
    (h : pyStartsWith (pyLower (posixBasename path)) "toc" = true) :
    (toc_check path text ≠ [] ↔
      (strContainsS (pyLower text) "nav" = false ∨
        (strContainsS (pyLower text) "epub:type=\"toc\"" = false ∧
         strContainsS (pyLower text) "role=\"doc-toc\"" = false))) ∧
    (toc_check path text = [] ∨
      toc_check path text =
        ["toc.xhtml: missing <nav epub:type=\"toc\"> or role=\"doc-toc\""]) := by
  rcases Bool.eq_false_or_eq_true (strContainsS (pyLower text) "nav") with
    h1 | h1 <;>
  rcases Bool.eq_false_or_eq_true
      (strContainsS (pyLower text) "epub:type=\"toc\"") with h2 | h2 <;>
  rcases Bool.eq_false_or_eq_true
      (strContainsS (pyLower text) "role=\"doc-toc\"") with h3 | h3 <;>
  simp [toc_check, h, h1, h2, h3]

/-- Witness for the amended C3 at a concrete document with no marker at
all: the finding is emitted, and it is single. -/
theorem toc_check_amended_witness :
    (toc_check "toc.xhtml" "plain text" ≠ [] ↔
      (strContainsS (pyLower "plain text") "nav" = false ∨
        (strContainsS (pyLower "plain text") "epub:type=\"toc\"" = false ∧
         strContainsS (pyLower "plain text") "role=\"doc-toc\"" = false))) ∧
    (toc_check "toc.xhtml" "plain text" = [] ∨
      toc_check "toc.xhtml" "plain text" =
        ["toc.xhtml: missing <nav epub:type=\"toc\"> or role=\"doc-toc\""]) :=
  toc_check_amended "toc.xhtml" "plain text" (by decide)

/-! ## Claim C6 -/

/-- C6: a scanned attribute value that is non-empty after stripping, not
fragment-only, and without a URI scheme is resolved against the
own directory of the document and yields exactly one finding when the
resolved path is not in the file set of the translated archive;
and the resolution of `img/cover.png` from `text/ch1.xhtml` is
`text/img/cover.png`. -/
theorem ref_check_spec (docPath h0 : String) (names : List String)
    (h1 : pyStrip h0 ≠ "")
    (h2 : pyStartsWith (pyStrip h0) "#" = false)
    (h3 : hasScheme (pyStrip h0) = false) :
    refCheck docPath [h0] names =
      (if names.contains (resolveRef docPath (pyStrip h0)) then []
       else ["missing referenced resource: " ++
             resolveRef docPath (pyStrip h0)]) ∧
    resolveRef "text/ch1.xhtml" "img/cover.png" = "text/img/cover.png" := by
  refine ⟨?_, by decide⟩
  by_cases hmem : names.contains (resolveRef docPath (pyStrip h0)) = true
  · have hmem' : normalize_path (posixJoin (normalize_path
        (posixDirname docPath)) (pyStrip h0)) ∈ names := contains_mem.mp hmem
    simp [refCheck, resolveRef, List.filterMap_cons, List.filterMap_nil,
      h1, h2, h3, hmem, hmem']
  · have hni : normalize_path (posixJoin (normalize_path
        (posixDirname docPath)) (pyStrip h0)) ∉ names :=
      fun hc => hmem (contains_mem.mpr hc)
    simp [refCheck, resolveRef, List.filterMap_cons, List.filterMap_nil,
      h1, h2, h3, hmem, hni]

/-- Witness for C6: the example from the spec, with an archive that lacks
the resolved path, reported exactly once. -/
theorem ref_check_spec_witness :
    refCheck "text/ch1.xhtml" ["img/cover.png"] ["other.png"] =
      (if List.contains ["other.png"]
            (resolveRef "text/ch1.xhtml" (pyStrip "img/cover.png")) then []
       else ["missing referenced resource: " ++
             resolveRef "text/ch1.xhtml" (pyStrip "img/cover.png")]) ∧
    resolveRef "text/ch1.xhtml" "img/cover.png" = "text/img/cover.png" :=
  ref_check_spec "text/ch1.xhtml" "img/cover.png" ["other.png"]
    (by decide) (by decide) (by decide)

/-! ## Claim C2 -/

/-- C2: when the mimetype entry is present under its own raw name, the
three remaining bootstrap checks all run and are independent: each of the
distinct findings appears exactly when its invariant is violated, the
`missing` finding never appears, and an archive with correct content and
first position but compressed storage reports exactly the single
storage-mode violation. -/
theorem mimetype_checks_spec (z : Archive) (e : ZEntry)
    (hf : zipFind z "mimetype" = some e)
    (hm : (zip_namelist_files z).contains "mimetype" = true) :
    (∀ z2 : Archive, (zip_namelist_files z2).contains "mimetype" = false →
      mimetypeSection z2 = Except.ok [MtFinding.missing]) ∧
    (∀ L, mimetypeSection z = Except.ok L →
      ((MtFinding.missing ∈ L ↔ False) ∧
       (MtFinding.badContent ∈ L ↔
          pyStrip (decodeAsciiIgnore e.data) ≠ "application/epub+zip") ∧
       (MtFinding.notFirst ∈ L ↔
          ¬ (zip_namelist_files z).head? = some "mimetype") ∧
       (MtFinding.notStored ∈ L ↔ e.stored = false))) ∧
    (pyStrip (decodeAsciiIgnore e.data) = "application/epub+zip" →
      (zip_namelist_files z).head? = some "mimetype" → e.stored = false →
      mimetypeSection z = Except.ok [MtFinding.notStored]) := by
  refine ⟨?_, ?_⟩
  case _ =>
    intro z2 hz2
    rw [mimetypeSection]
    rw [hz2]
    rfl
  have hsec : mimetypeSection z =
      Except.ok
        ((if pyStrip (decodeAsciiIgnore e.data) ≠ "application/epub+zip"
          then [MtFinding.badContent] else []) ++
         (if ¬ (zip_namelist_files z).head? = some "mimetype"
          then [MtFinding.notFirst] else []) ++
         (if ¬ e.stored then [MtFinding.notStored] else [])) := by
    simp only [mimetypeSection, hm, eq_self_iff_true, if_true, hf]
  constructor
  · intro L hL
    rw [hsec] at hL
    injection hL with hL
    subst hL
    by_cases c1 : pyStrip (decodeAsciiIgnore e.data) = "application/epub+zip" <;>
    by_cases c2 : (zip_namelist_files z).head? = some "mimetype" <;>
    by_cases c3 : e.stored = true <;>
    simp [c1, c2, c3]
  · intro c1 c2 c3
    rw [hsec]
    simp [c1, c2, c3]

/-- Witness for C2: an archive whose mimetype entry has correct content
and position but compressed storage reports exactly the storage-mode
violation. -/
theorem mimetype_checks_spec_witness :
    mimetypeSection [⟨"mimetype", mimeBytes, false⟩] =
      Except.ok [MtFinding.notStored] :=
  (mimetype_checks_spec [⟨"mimetype", mimeBytes, false⟩]
      ⟨"mimetype", mimeBytes, false⟩ (by decide) (by decide)).2.2
    (by decide) (by decide) rfl

/-! ## Claim C10 -/

/-- C10: every path in the reading order returned by `parse_opf` also
appears in the returned manifest path list: spine entries resolve only
through identifiers recorded from manifest items. -/
theorem spine_subset_manifest (items : List OpfItem) (idrefs : List String)
    (opfPath : String) :
    ∀ p ∈ (parse_opf items idrefs opfPath).spine_paths,
      p ∈ (parse_opf items idrefs opfPath).manifest_paths := by
  intro p hp
  simp only [parse_opf] at hp ⊢
  rw [spinePathsOf, List.mem_filterMap] at hp
  obtain ⟨idref, -, hstep⟩ := hp
  rcases hdg : dictGet (idToHrefOf
      (normalize_path (posixDirname opfPath)) items) idref with _ | full
  · rw [hdg] at hstep; simp at hstep
  · rw [hdg] at hstep
    by_cases hfull : full = ""
    · simp [hfull] at hstep
    · simp only [if_neg hfull, Option.some.injEq] at hstep
      subst hstep
      rw [dictGet, Option.map_eq_some'] at hdg
      obtain ⟨kv, hfind, hkv⟩ := hdg
      have hmem := List.mem_of_find?_eq_some hfind
      rw [List.mem_reverse] at hmem
      rw [idToHrefOf, List.mem_filterMap] at hmem
      obtain ⟨it, hit, heq⟩ := hmem
      by_cases hcond : it.href = "" ∨ it.idAttr = ""
      · simp [hcond] at heq
      · simp only [if_neg hcond, Option.some.injEq] at heq
        rw [manifestPathsOf, List.mem_filterMap]
        push_neg at hcond
        refine ⟨it, hit, ?_⟩
        rw [if_neg hcond.1, ← hkv, ← heq]

/-- Witness for C10 at a one-item package document. -/
theorem spine_subset_manifest_witness :
    "ch1.xhtml" ∈ (parse_opf [⟨"ch1.xhtml", "application/xhtml+xml", "c1"⟩]
        ["c1"] "content.opf").manifest_paths :=
  spine_subset_manifest [⟨"ch1.xhtml", "application/xhtml+xml", "c1"⟩]
    ["c1"] "content.opf" "ch1.xhtml" (by decide)

/-! ## Claim C1 -/

theorem mem_commonSorted {zo zt : Archive} {p : String} :
    p ∈ commonSorted zo zt ↔
      p ∈ zip_namelist_files zo ∧ p ∈ zip_namelist_files zt := by
  rw [commonSorted, sortedSetInter, mem_sortStr, List.mem_filter,
    List.mem_dedup]
  simp

theorem toNonHtml_false_iff {q : String} :
    toNonHtml q = false ↔
      (pyEndsWith (pyLower q) ".html" = true ∨
       pyEndsWith (pyLower q) ".xhtml" = true ∨ q = "mimetype") := by
  simp only [toNonHtml, decide_eq_false_iff_not]
  tauto

theorem toNonHtml_true_iff {q : String} :
    toNonHtml q = true ↔
      (¬ (pyEndsWith (pyLower q) ".html" = true ∨
          pyEndsWith (pyLower q) ".xhtml" = true) ∧ q ≠ "mimetype") := by
  simp [toNonHtml]

/-- C1 counterexample: two archives whose only difference is the byte
content of the `mimetype` entry.  The changed `mimetype` path lands in
the markup bucket (`changed_html_paths`, which feeds the validator) and
not in the non-markup bucket, contradicting the claim. -/
theorem mimetype_markup_counterexample :
    (contentDiff [⟨"mimetype", [97], true⟩]
        [⟨"mimetype", [98], true⟩]).changedHtmlPaths = ["mimetype"] ∧
    (contentDiff [⟨"mimetype", [97], true⟩]
        [⟨"mimetype", [98], true⟩]).nonHtmlChanged = [] := by
  decide

/-- C1 amended: a path present in both archives with differing bytes is
classified as markup exactly when it ends in `.html`/`.xhtml`
(case-insensitively) or is the literal path `mimetype`; every other
changed path is non-markup.  The mimetype entry is excluded from the
non-markup bucket and so feeds the markup bucket. -/
theorem content_classification (zo zt : Archive) (p : String) :
    (p ∈ (contentDiff zo zt).changedHtmlPaths ↔
      ((p ∈ zip_namelist_files zo ∧ p ∈ zip_namelist_files zt) ∧
       bytesDiffer zo zt p = true ∧
       (pyEndsWith (pyLower p) ".html" = true ∨
        pyEndsWith (pyLower p) ".xhtml" = true ∨ p = "mimetype"))) ∧
    (p ∈ (contentDiff zo zt).nonHtmlChanged ↔
      ((p ∈ zip_namelist_files zo ∧ p ∈ zip_namelist_files zt) ∧
       bytesDiffer zo zt p = true ∧
       (¬ (pyEndsWith (pyLower p) ".html" = true ∨
           pyEndsWith (pyLower p) ".xhtml" = true) ∧ p ≠ "mimetype"))) := by
  have hch : p ∈ changedPaths zo zt ↔
      ((p ∈ zip_namelist_files zo ∧ p ∈ zip_namelist_files zt) ∧
        bytesDiffer zo zt p = true) := by
    rw [changedPaths, List.mem_filter, mem_commonSorted]
  constructor
  · rw [contentDiff]
    simp only [List.mem_filter, hch]
    rw [decide_eq_true_eq, Bool.not_eq_true, toNonHtml_false_iff]
    tauto
  · rw [contentDiff]
    simp only [List.mem_filter, hch]
    rw [toNonHtml_true_iff]
    tauto

/-! ## Claim C7 -/

/-- C7 failing input: both archives store the bootstrap entry under the
raw name `./mimetype`.  The normalized listing contains `mimetype`, so
the existence check passes, but the raw-name lookup of line 131
(getinfo on the raw name mimetype, line 131) finds nothing and the comparison raises
KeyError instead of returning a report. -/
theorem compare_epub_raises_keyerror :
    comparePipeline noRoot noOpf noIssues
        [⟨"./mimetype", mimeBytes, true⟩]
        [⟨"./mimetype", mimeBytes, true⟩] =
      Except.error PyErr.keyError := by
  decide

/-! ## Claim C4 -/

/-- C4 counterexample: two identical archives whose mimetype entry is
compressed.  Both sides report the storage-mode bootstrap violation, yet
the closing hint still fires, because line 310 never consults the
bootstrap findings. -/
theorem summary_hint_counterexample :
    (comparePipeline noRoot noOpf noIssues
        [⟨"mimetype", mimeBytes, false⟩]
        [⟨"mimetype", mimeBytes, false⟩]).toOption.map
      (fun r => (r.hint, r.mtFindO)) =
      some (true, [MtFinding.notStored]) := by
  decide

/-- C4 amended: a successful comparison emits the closing hint exactly
when there are no missing or extra files, the rootfile paths agree, no
manifest / media-type / reading-order difference was found (vacuously
when the original package did not parse), and no non-markup content
changed.  Bootstrap-invariant violations, unresolved manifest references
and markup findings do not influence the hint. -/
theorem summary_hint_spec (gr : List Nat → Option String)
    (po : List Nat → String → OpfData)
    (fi : String → List Nat → Bool → List String → List String)
    (zo zt : Archive) (r : CompareResult)
    (h : comparePipeline gr po fi zo zt = Except.ok r) :
    r.hint = true ↔
      (r.missing = [] ∧ r.extra = [] ∧ r.relO = r.relT ∧
       (r.parsedO = false ∨
         (r.manMissing = [] ∧ r.manExtra = [] ∧ r.diffIdx = -1 ∧
          r.spineLenO = r.spineLenT ∧ r.mtDiffs = 0)) ∧
       r.nonHtmlChanged = []) := by
  rw [comparePipeline] at h
  rcases hmo : mimetypeSection zo with eo | mo <;> rw [hmo] at h
  · simp at h
  rcases hmt : mimetypeSection zt with et | mt <;> rw [hmt] at h
  · simp at h
  rcases hhc : hintOf gr po zo zt with ec | hv <;> rw [hhc] at h
  · simp at h
  simp only [Except.ok.injEq] at h
  subst h
  simp only [resultRecord]
  rw [hintOf] at hhc
  simp only [hintCalc] at hhc
  by_cases c1 : missingInTranslated zo zt = [] ∧ extraInTranslated zo zt = []
  · rw [if_neg (not_not_intro c1)] at hhc
    by_cases c2 : (extract_opf gr po zo).1 = (extract_opf gr po zt).1
    · rw [if_neg (not_not_intro c2)] at hhc
      rcases ho : (extract_opf gr po zo).2 with _ | vo <;> rw [ho] at hhc
      · injection hhc with hhc
        subst hhc
        simp [c1.1, c1.2, c2, ho, decide_eq_true_eq]
      · rcases ht : (extract_opf gr po zt).2 with _ | vt <;> rw [ht] at hhc
        · exact absurd hhc (by simp)
        · injection hhc with hhc
          subst hhc
          simp only [decide_eq_true_eq, ho, ht, Option.isSome_some]
          constructor
          · rintro ⟨⟨a1, a2, a3, a4⟩, a5, a6⟩
            exact ⟨c1.1, c1.2, c2, Or.inr ⟨a1, a2, a3, a4, a5⟩, a6⟩
          · rintro ⟨-, -, -, hd, a6⟩
            rcases hd with hd | hd
            · exact absurd hd (by simp)
            · exact ⟨⟨hd.1, hd.2.1, hd.2.2.1, hd.2.2.2.1⟩, hd.2.2.2.2, a6⟩
    · rw [if_pos c2] at hhc
      injection hhc with hhc
      subst hhc
      simp [c2]
  · rw [if_pos c1] at hhc
    injection hhc with hhc
    subst hhc
    simp only [Bool.false_eq_true, false_iff]
    rintro ⟨a1, a2, -⟩
    exact c1 ⟨a1, a2⟩

/-! ## Claim C9 -/

theorem mem_joinSlash {c : Char} :
    ∀ {cs : List (List Char)}, c ∈ joinSlash cs →
      c = '/' ∨ ∃ l, l ∈ cs ∧ c ∈ l := by
  intro cs
  induction cs with
  | nil => intro h; exact absurd h (List.not_mem_nil c)
  | cons a t ih =>
    intro h
    cases t with
    | nil => exact Or.inr ⟨a, List.mem_singleton_self a, h⟩
    | cons b t2 =>
      have hj : joinSlash (a :: b :: t2) = a ++ '/' :: joinSlash (b :: t2) :=
        rfl
      rw [hj] at h
      rcases List.mem_append.mp h with h | h
      · exact Or.inr ⟨a, List.mem_cons_self a _, h⟩
      · rcases List.mem_cons.mp h with h | h
        · exact Or.inl h
        · rcases ih h with h | ⟨l, hl, hc⟩
          · exact Or.inl h
          · exact Or.inr ⟨l, List.mem_cons_of_mem a hl, hc⟩

theorem splitSlash_ne_nil : ∀ (l : List Char), splitSlash l ≠ [] := by
  intro l
  cases l with
  | nil => simp [splitSlash]
  | cons c t =>
    rw [splitSlash]
    by_cases hc : c = '/'
    · simp [hc]
    · simp only [if_neg hc]
      rcases hr : splitSlash t with _ | ⟨h2, t2⟩ <;> simp

theorem mem_of_mem_splitSlash {c : Char} :
    ∀ {l : List Char} {comp : List Char},
      comp ∈ splitSlash l → c ∈ comp → c ∈ l := by
  intro l
  induction l with
  | nil =>
    intro comp hcomp hc
    rw [splitSlash, List.mem_singleton] at hcomp
    subst hcomp
    exact absurd hc (List.not_mem_nil c)
  | cons c0 t ih =>
    intro comp hcomp hc
    rw [splitSlash] at hcomp
    by_cases h0 : c0 = '/'
    · rw [if_pos h0] at hcomp
      rcases List.mem_cons.mp hcomp with h | h
      · subst h; exact absurd hc (List.not_mem_nil c)
      · exact List.mem_cons_of_mem c0 (ih h hc)
    · rw [if_neg h0] at hcomp
      rcases hr : splitSlash t with _ | ⟨h2, t2⟩
      · exact absurd hr (splitSlash_ne_nil t)
      · rw [hr] at hcomp
        rcases List.mem_cons.mp hcomp with h | h
        · subst h
          rcases List.mem_cons.mp hc with h | h
          · exact h ▸ List.mem_cons_self c0 t
          · have : c ∈ t := ih (hr ▸ List.mem_cons_self h2 t2) h
            exact List.mem_cons_of_mem c0 this
        · have : c ∈ t := ih (hr ▸ List.mem_cons_of_mem h2 h) hc
          exact List.mem_cons_of_mem c0 this

theorem no_slash_of_mem_splitSlash :
    ∀ {l : List Char} {comp : List Char},
      comp ∈ splitSlash l → '/' ∉ comp := by
  intro l
  induction l with
  | nil =>
    intro comp hcomp
    rw [splitSlash, List.mem_singleton] at hcomp
    subst hcomp
    exact List.not_mem_nil _
  | cons c0 t ih =>
    intro comp hcomp
    rw [splitSlash] at hcomp
    by_cases h0 : c0 = '/'
    · rw [if_pos h0] at hcomp
      rcases List.mem_cons.mp hcomp with h | h
      · subst h; exact List.not_mem_nil _
      · exact ih h
    · rw [if_neg h0] at hcomp
      rcases hr : splitSlash t with _ | ⟨h2, t2⟩
      · exact absurd hr (splitSlash_ne_nil t)
      · rw [hr] at hcomp
        rcases List.mem_cons.mp hcomp with h | h
        · subst h
          intro hmem
          rcases List.mem_cons.mp hmem with h | h
          · exact h0 h.symm
          · exact ih (hr ▸ List.mem_cons_self h2 t2) h
        · exact ih (hr ▸ List.mem_cons_of_mem h2 h)

theorem mem_foldl_npStep {s : Nat} {x : List Char} :
    ∀ (l : List (List Char)) (acc : List (List Char)),
      x ∈ l.foldl (npStep s) acc → x ∈ acc ∨ x ∈ l := by
  intro l
  induction l with
  | nil => intro acc h; exact Or.inl h
  | cons a t ih =>
    intro acc h
    rw [List.foldl_cons] at h
    rcases ih (npStep s acc a) h with h | h
    · rw [npStep] at h
      split at h
      · rcases List.mem_append.mp h with h | h
        · exact Or.inl h
        · rw [List.mem_singleton] at h
          exact Or.inr (h ▸ List.mem_cons_self a t)
      · exact Or.inl (List.dropLast_subset acc h)
    · exact Or.inr (List.mem_cons_of_mem a h)

theorem mem_npAssembled {c : Char} {n : Nat} {cs : List (List Char)}
    {p : List Char} (hcs : ∀ l ∈ cs, ∀ x ∈ l, x ∈ p)
    (h : c ∈ List.replicate n '/' ++ joinSlash (List.foldl (npStep n) [] cs)) :
    c = '/' ∨ c ∈ p := by
  rcases List.mem_append.mp h with h | h
  · exact Or.inl (List.eq_of_mem_replicate h)
  · rcases mem_joinSlash h with h | ⟨l, hl, hc⟩
    · exact Or.inl h
    · rcases mem_foldl_npStep _ [] hl with h' | h'
      · exact absurd h' (List.not_mem_nil l)
      · exact Or.inr (hcs l h' c hc)

theorem mem_normpathL {c : Char} {p : List Char} (h : c ∈ normpathL p) :
    c = '/' ∨ c = '.' ∨ c ∈ p := by
  simp only [normpathL] at h
  by_cases hp : p = []
  · rw [if_pos hp, List.mem_singleton] at h
    exact Or.inr (Or.inl h)
  · rw [if_neg hp] at h
    have hcs : ∀ l ∈ List.filter (fun c => decide (c ≠ [] ∧ c ≠ ['.']))
        (splitSlash p), ∀ x ∈ l, x ∈ p :=
      fun l hl x hx => mem_of_mem_splitSlash (List.mem_filter.mp hl).1 hx
    repeat' split at h
    all_goals
      first
        | (rw [List.mem_singleton] at h; exact Or.inr (Or.inl h))
        | exact (mem_npAssembled hcs h).imp_right Or.inr

theorem not_bs_replaceBS {l : List Char} : '\\' ∉ replaceBS l := by
  intro h
  rw [replaceBS, List.mem_map] at h
  obtain ⟨c, -, hc⟩ := h
  by_cases h0 : c = '\\' <;> simp [h0] at hc

theorem replaceBS_eq_self : ∀ {l : List Char}, '\\' ∉ l →
    replaceBS l = l := by
  intro l
  induction l with
  | nil => intro _; rfl
  | cons c t ih =>
    intro h
    rw [List.mem_cons, not_or] at h
    show (if c = '\\' then '/' else c) :: replaceBS t = c :: t
    rw [if_neg (fun he => h.1 he.symm), ih h.2]

theorem mem_lstripL {c : Char} {l : List Char} (h : c ∈ lstripL l) :
    c ∈ l :=
  (List.dropWhile_suffix isWS).subset h

theorem rstripL_pre (l : List Char) : rstripL l <+: l := by
  rw [rstripL]
  have := List.dropWhile_suffix (l := l.reverse) isWS
  rw [← List.reverse_prefix] at this
  simpa using this

theorem mem_stripL {c : Char} {l : List Char} (h : c ∈ stripL l) : c ∈ l := by
  rw [stripL] at h
  exact mem_lstripL ((rstripL_pre (lstripL l)).subset h)

theorem not_bs_normalizePathL {l : List Char} : '\\' ∉ normalizePathL l := by
  rw [normalizePathL]
  intro h
  split at h
  · exact not_bs_replaceBS (mem_stripL (List.drop_subset 2 _ h))
  · exact not_bs_replaceBS (mem_stripL h)

theorem newComps_prop {s : Nat} {p : List Char} {x : List Char}
    (hx : x ∈ List.foldl (npStep s) []
      (List.filter (fun c => decide (c ≠ [] ∧ c ≠ ['.'])) (splitSlash p))) :
    x ≠ [] ∧ x ≠ ['.'] ∧ '/' ∉ x := by
  rcases mem_foldl_npStep _ [] hx with h | h
  · exact absurd h (List.not_mem_nil x)
  · have h2 := List.mem_filter.mp h
    have h3 := of_decide_eq_true h2.2
    exact ⟨h3.1, h3.2, no_slash_of_mem_splitSlash h2.1⟩

theorem isPrefixL_iff : ∀ (a b : List Char), isPrefixL a b = true ↔ a <+: b := by
  intro a
  induction a with
  | nil => intro b; simp [isPrefixL]
  | cons c cs ih =>
    intro b
    cases b with
    | nil => simp [isPrefixL]
    | cons d ds =>
      simp [isPrefixL, List.cons_prefix_cons, ih]

theorem dropWhile_append_all {a b : List Char}
    (h : ∀ c ∈ a, isWS c = true) : lstripL (a ++ b) = lstripL b := by
  induction a with
  | nil => rfl
  | cons c t ih =>
    have hc := h c (List.mem_cons_self c t)
    rw [List.cons_append, lstripL, List.dropWhile_cons, if_pos hc]
    exact ih (fun x hx => h x (List.mem_cons_of_mem c hx))

theorem dropWhile_append_head {a b : List Char} {d : Char} {a' : List Char}
    (h : lstripL a = d :: a') : lstripL (a ++ b) = d :: (a' ++ b) := by
  induction a with
  | nil => exact absurd h (by simp [lstripL])
  | cons c t ih =>
    rw [lstripL, List.dropWhile_cons] at h
    by_cases hc : isWS c = true
    · rw [if_pos hc] at h
      rw [List.cons_append, lstripL, List.dropWhile_cons, if_pos hc]
      exact ih h
    · rw [if_neg hc] at h
      injection h with h1 h2
      subst h1
      subst h2
      rw [List.cons_append, lstripL, List.dropWhile_cons, if_neg hc]

theorem stripL_assembled_no_dsds {n : Nat} {cs : List (List Char)}
    (hP : ∀ x ∈ cs, x ≠ [] ∧ x ≠ ['.'] ∧ '/' ∉ x) :
    ¬ ['.', '/', '.', '/'] <+:
        stripL (List.replicate n '/' ++ joinSlash cs) := by
  intro hpre
  have hpre2 : ['.', '/', '.', '/'] <+:
      lstripL (List.replicate n '/' ++ joinSlash cs) :=
    hpre.trans (rstripL_pre _)
  obtain ⟨tt, htt⟩ := hpre2
  cases n with
  | succ n' =>
    rw [List.replicate_succ] at htt
    simp only [List.cons_append] at htt
    rw [lstripL, List.dropWhile_cons,
      if_neg (by decide : ¬ isWS '/' = true)] at htt
    injection htt with h1 _
    exact absurd h1 (by decide)
  | zero =>
    rw [List.replicate_zero, List.nil_append] at htt
    cases cs with
    | nil =>
      have hlen := congrArg List.length htt
      simp [lstripL, joinSlash] at hlen
    | cons c1 rest =>
      cases rest with
      | nil =>
        have hj : joinSlash [c1] = c1 := rfl
        rw [hj] at htt
        have hsl : '/' ∈ c1 := by
          apply mem_lstripL
          rw [← htt]
          simp
        exact (hP c1 (List.mem_cons_self c1 _)).2.2 hsl
      | cons r t =>
        have hj : joinSlash (c1 :: r :: t) = c1 ++ '/' :: joinSlash (r :: t) :=
          rfl
        rw [hj] at htt
        rcases hstrip : lstripL c1 with _ | ⟨d, c1'⟩
        · have hall : ∀ x ∈ c1, isWS x = true := by
            rw [← List.dropWhile_eq_nil_iff]
            exact hstrip
          rw [dropWhile_append_all hall, lstripL, List.dropWhile_cons,
            if_neg (by decide : ¬ isWS '/' = true)] at htt
          simp only [List.cons_append] at htt
          injection htt with h1 _
          exact absurd h1 (by decide)
        · rw [dropWhile_append_head hstrip] at htt
          simp only [List.cons_append, List.nil_append] at htt
          injection htt with hd htt2
          cases c1' with
          | cons e t1' =>
            rw [List.cons_append] at htt2
            injection htt2 with he _
            have hmem : e ∈ c1 := by
              have hsub : lstripL c1 <:+ c1 := List.dropWhile_suffix isWS
              exact hsub.subset
                (hstrip ▸ List.mem_cons_of_mem d (List.mem_cons_self e t1'))
            exact (hP c1 (List.mem_cons_self _ _)).2.2 (he ▸ hmem)
          | nil =>
            rw [List.nil_append] at htt2
            injection htt2 with _ htt3
            obtain ⟨hr_ne, hr_dot, hr_sl⟩ :=
              hP r (List.mem_cons_of_mem c1 (List.mem_cons_self r t))
            cases t with
            | nil =>
              have hj2 : joinSlash [r] = r := rfl
              rw [hj2] at htt3
              cases r with
              | nil => exact hr_ne rfl
              | cons r0 r' =>
                injection htt3 with h1 h2
                exact hr_sl (h2 ▸ List.mem_cons_of_mem r0
                  (List.mem_cons_self '/' tt))
            | cons u t2 =>
              have hj3 : joinSlash (r :: u :: t2) =
                  r ++ '/' :: joinSlash (u :: t2) := rfl
              rw [hj3] at htt3
              cases r with
              | nil => exact hr_ne rfl
              | cons r0 r' =>
                rw [List.cons_append] at htt3
                injection htt3 with h1 h2
                cases r' with
                | nil =>
                  apply hr_dot
                  rw [← h1]
                | cons f t3 =>
                  rw [List.cons_append] at h2
                  injection h2 with h3 _
                  apply hr_sl
                  rw [h3]
                  exact List.mem_cons_of_mem r0 (List.mem_cons_self f t3)

theorem stripL_dot_no_dsds : ¬ ['.', '/', '.', '/'] <+: stripL ['.'] := by
  intro hcon
  obtain ⟨tt, htt⟩ := hcon
  have h1 : stripL ['.'] = ['.'] := rfl
  rw [h1] at htt
  have hlen := congrArg List.length htt
  simp [List.length_append] at hlen

theorem stripL_normpathL_no_dsds (l : List Char) :
    ¬ ['.', '/', '.', '/'] <+: stripL (normpathL l) := by
  simp only [normpathL]
  by_cases hp : l = []
  · rw [if_pos hp]
    exact stripL_dot_no_dsds
  · rw [if_neg hp]
    repeat' split
    all_goals
      first
        | exact stripL_assembled_no_dsds (fun x hx => newComps_prop hx)
        | exact stripL_dot_no_dsds

theorem normalizePathL_no_dotslash {l : List Char} (hbs : '\\' ∉ l) :
    isPrefixL ['.', '/'] (normalizePathL l) = false := by
  have hb : '\\' ∉ normpathL l := by
    intro h
    rcases mem_normpathL h with h | h | h
    · exact absurd h (by decide)
    · exact absurd h (by decide)
    · exact hbs h
  rw [normalizePathL, replaceBS_eq_self hb]
  by_cases hpre : isPrefixL ['.', '/'] (stripL (normpathL l)) = true
  · rw [if_pos hpre]
    obtain ⟨tt, htt⟩ := (isPrefixL_iff _ _).mp hpre
    rw [← htt]
    simp only [List.cons_append, List.nil_append, List.drop_succ_cons,
      List.drop_zero]
    by_contra hc
    rw [Bool.not_eq_false] at hc
    obtain ⟨t3, ht3⟩ := (isPrefixL_iff _ _).mp hc
    apply stripL_normpathL_no_dsds l
    refine ⟨t3, ?_⟩
    rw [← htt, ← ht3]
    rfl
  · rw [if_neg hpre]
    exact Bool.not_eq_true _ ▸ hpre

/-- C9 counterexample: a raw entry name using backslash separators.
`normpath` runs before the backslash replacement, so `.\.\x` normalizes
to `./x`, and the listing contains a path with a leading `./`. -/
theorem normalized_listing_counterexample :
    zip_namelist_files [⟨".\\.\\x", [], true⟩] = ["./x"] ∧
    pyStartsWith "./x" "./" = true := by
  decide

/-- C9 amended: every listed path comes from an entry whose raw name does
not end in `/`, contains no backslash, and — provided the raw names of
the archive are backslash-free — never starts with `./`. -/
theorem normalized_listing_spec (z : Archive)
    (hbs : ∀ e ∈ z, e.name.data.contains '\\' = false) :
    ∀ p ∈ zip_namelist_files z,
      p.data.contains '\\' = false ∧
      pyStartsWith p "./" = false ∧
      ∃ e, e ∈ z ∧ pyEndsWith e.name "/" = false ∧
        p = normalize_path e.name := by
  intro p hp
  rw [zip_namelist_files, List.mem_map] at hp
  obtain ⟨e, hef, hpe⟩ := hp
  rw [List.mem_filter] at hef
  have hez : e ∈ z := hef.1
  have hnd : pyEndsWith e.name "/" = false := by
    have h2 := hef.2
    simpa using h2
  have hbs_e : '\\' ∉ e.name.data := by
    have h2 := hbs e hez
    simpa using h2
  subst hpe
  refine ⟨?_, ?_, e, hez, hnd, rfl⟩
  · have hnb : '\\' ∉ (normalize_path e.name).data := not_bs_normalizePathL
    simpa using hnb
  · show isPrefixL ['.', '/'] (normalizePathL e.name.data) = false
    exact normalizePathL_no_dotslash hbs_e

/-- Witness for the amended C9 at a concrete archive. -/
theorem normalized_listing_spec_witness :
    ("a/b.txt" : String).data.contains '\\' = false ∧
    pyStartsWith "a/b.txt" "./" = false :=
  ⟨(normalized_listing_spec [⟨"a/b.txt", [], true⟩] (by decide) "a/b.txt"
      (by decide)).1,
   (normalized_listing_spec [⟨"a/b.txt", [], true⟩] (by decide) "a/b.txt"
      (by decide)).2.1⟩

/-- Witness for the amended C4 at a concrete pair of empty archives:
the run succeeds with the hint emitted. -/
theorem summary_hint_spec_witness :
    (⟨[], [], [MtFinding.missing], [MtFinding.missing], none, none, false,
        false, [], [], 0, -1, 0, 0, [], [], [], [], [], true⟩ :
        CompareResult).hint = true ↔
      ((⟨[], [], [MtFinding.missing], [MtFinding.missing], none, none, false,
          false, [], [], 0, -1, 0, 0, [], [], [], [], [], true⟩ :
          CompareResult).missing = [] ∧
       (⟨[], [], [MtFinding.missing], [MtFinding.missing], none, none, false,
          false, [], [], 0, -1, 0, 0, [], [], [], [], [], true⟩ :
          CompareResult).extra = [] ∧
       (⟨[], [], [MtFinding.missing], [MtFinding.missing], none, none, false,
          false, [], [], 0, -1, 0, 0, [], [], [], [], [], true⟩ :
          CompareResult).relO =
         (⟨[], [], [MtFinding.missing], [MtFinding.missing], none, none,
            false, false, [], [], 0, -1, 0, 0, [], [], [], [], [], true⟩ :
            CompareResult).relT ∧
       ((⟨[], [], [MtFinding.missing], [MtFinding.missing], none, none,
           false, false, [], [], 0, -1, 0, 0, [], [], [], [], [], true⟩ :
           CompareResult).parsedO = false ∨
         ((⟨[], [], [MtFinding.missing], [MtFinding.missing], none, none,
             false, false, [], [], 0, -1, 0, 0, [], [], [], [], [], true⟩ :
             CompareResult).manMissing = [] ∧
          (⟨[], [], [MtFinding.missing], [MtFinding.missing], none, none,
             false, false, [], [], 0, -1, 0, 0, [], [], [], [], [], true⟩ :
             CompareResult).manExtra = [] ∧
          (⟨[], [], [MtFinding.missing], [MtFinding.missing], none, none,
             false, false, [], [], 0, -1, 0, 0, [], [], [], [], [], true⟩ :
             CompareResult).diffIdx = -1 ∧
          (⟨[], [], [MtFinding.missing], [MtFinding.missing], none, none,
             false, false, [], [], 0, -1, 0, 0, [], [], [], [], [], true⟩ :
             CompareResult).spineLenO =
            (⟨[], [], [MtFinding.missing], [MtFinding.missing], none, none,
               false, false, [], [], 0, -1, 0, 0, [], [], [], [], [],
               true⟩ : CompareResult).spineLenT ∧
          (⟨[], [], [MtFinding.missing], [MtFinding.missing], none, none,
             false, false, [], [], 0, -1, 0, 0, [], [], [], [], [], true⟩ :
             CompareResult).mtDiffs = 0)) ∧
       (⟨[], [], [MtFinding.missing], [MtFinding.missing], none, none, false,
          false, [], [], 0, -1, 0, 0, [], [], [], [], [], true⟩ :
          CompareResult).nonHtmlChanged = []) :=
  summary_hint_spec noRoot noOpf noIssues [] []
    ⟨[], [], [MtFinding.missing], [MtFinding.missing], none, none, false,
      false, [], [], 0, -1, 0, 0, [], [], [], [], [], true⟩ (by decide)

end CompareEpub
